import Mathlib

/-!
Shallow embedding of the `RatingNet` contract (contracts/RatingNet.sol) and of
the submit gating of the frontend (frontend/src/ui/App.tsx).

The FHEVM primitive layer is modelled as a handle store: every arithmetic
operation allocates a fresh handle id and records the plaintext the new
ciphertext would decrypt to, exactly as the mocked coprocessor tracks values.
`euint8` values are kept reduced modulo 2^8 and `euint32` values modulo 2^32,
matching the declared widths. The ACL is the relation `allow : handle ×
principal → Bool` that `FHE.allow` / `FHE.allowThis` append to.
-/

namespace RatingNet

/-- Ethereum addresses (subjects, callers, the contract itself) as naturals. -/
abbrev Address := Nat

/-- Modulus of the 8-bit ciphertext width (`euint8`). -/
def U8 : Nat := 2 ^ 8

/-- Modulus of the 32-bit width (`euint32` ciphertexts and the clear `uint32`
counter). -/
def U32 : Nat := 2 ^ 32

/-- Per-subject record from the contract:
`struct Stats { euint32 sum; uint32 count; }`.
`sum` is the handle id of the encrypted running sum; `count` is the clear
counter, kept reduced modulo 2^32. -/
structure Stats where
  sum : Nat
  count : Nat
deriving Repr, DecidableEq

/-- The contract-visible state: the coprocessor's fresh-handle counter and
valuation, the ACL relation, and the `_statsBySubject` mapping. A Solidity
mapping defaults to the zero value, so an untouched subject maps to
`{ sum := 0, count := 0 }`; handle id 0 is the uninitialized-ciphertext handle
and decrypts to 0. -/
structure ChainState where
  nextHandle : Nat
  handleVal : Nat → Nat
  acl : Nat → Address → Bool
  stats : Address → Stats

/-- The aggregation contract's own principal identity (the target of
`FHE.allowThis`). -/
def engineAddr : Address := 0

/-- State of a freshly deployed contract: no handles allocated beyond the
uninitialized handle 0 (which decrypts to 0), empty ACL, every subject
untouched. -/
def initialState : ChainState :=
  { nextHandle := 1
    handleVal := fun _ => 0
    acl := fun _ _ => false
    stats := fun _ => { sum := 0, count := 0 } }

/-- Allocate a fresh ciphertext handle decrypting to `v`. Every FHE operation
returns a brand-new handle; operand handles are never mutated in place. -/
def alloc (v : Nat) (st : ChainState) : Nat × ChainState :=
  (st.nextHandle,
   { st with
       nextHandle := st.nextHandle + 1
       handleVal := fun i => if i = st.nextHandle then v else st.handleVal i })

namespace FHE

/-- Model of `FHE.asEuint8(c)`: trivially encrypt a clear constant at 8-bit width. -/
def asEuint8 (c : Nat) (st : ChainState) : Nat × ChainState :=
  alloc (c % U8) st

/-- Model of `FHE.asEuint32(c)` on a clear constant: trivially encrypt at 32-bit
width (used for the encrypted 0 and the SCALE constant). -/
def asEuint32 (c : Nat) (st : ChainState) : Nat × ChainState :=
  alloc (c % U32) st

/-- Model of `FHE.asEuint32(h)` on an `euint8` handle: width-cast the ciphertext up to
32 bits; the decrypted value is unchanged (an 8-bit value already fits). -/
def asEuint32OfEuint8 (a : Nat) (st : ChainState) : Nat × ChainState :=
  alloc (st.handleVal a % U32) st

/-- Model of `FHE.max` on two `euint8` handles, entirely in ciphertext space. -/
def max (a b : Nat) (st : ChainState) : Nat × ChainState :=
  alloc (Max.max (st.handleVal a) (st.handleVal b)) st

/-- Model of `FHE.min` on two `euint8` handles, entirely in ciphertext space. -/
def min (a b : Nat) (st : ChainState) : Nat × ChainState :=
  alloc (Min.min (st.handleVal a) (st.handleVal b)) st

/-- Model of `FHE.add` on `euint32` handles: wrapping addition modulo 2^32. -/
def add (a b : Nat) (st : ChainState) : Nat × ChainState :=
  alloc ((st.handleVal a + st.handleVal b) % U32) st

/-- Model of `FHE.mul` on `euint32` handles: wrapping multiplication modulo 2^32. -/
def mul (a b : Nat) (st : ChainState) : Nat × ChainState :=
  alloc ((st.handleVal a * st.handleVal b) % U32) st

/-- Model of `FHE.div` of an `euint32` ciphertext by a clear integer scalar:
floor division (floor-toward-zero on these non-negative operands). -/
def div (a : Nat) (c : Nat) (st : ChainState) : Nat × ChainState :=
  alloc (st.handleVal a / c) st

/-- Model of `FHE.allow(h, p)`: append `(h, p)` to the ACL relation. Append-only; no
revoke exists. -/
def allow (h : Nat) (p : Address) (st : ChainState) : ChainState :=
  { st with acl := fun i q => if i = h ∧ q = p then true else st.acl i q }

/-- Model of `FHE.allowThis(h)`: grant the contract itself standing permission on `h`. -/
def allowThis (h : Nat) (st : ChainState) : ChainState :=
  allow h engineAddr st

end FHE

/-- Error taxonomy of the verified-import primitive `FHE.fromExternal`. -/
inductive ImportError where
  | InvalidInputProof
  | TypeMismatch
deriving Repr, DecidableEq

/-- An `externalEuint8` together with its input proof, as produced by the
relayer SDK: the plaintext it encrypts, its declared bit width, and whether
the accompanying proof verifies. -/
structure ExternalCiphertext where
  value : Nat
  width : Nat
  proofValid : Bool
deriving Repr, DecidableEq

/-- Model of `FHE.fromExternal(cipherScore, inputProof)`: verified import of an
external ciphertext. Fails with `InvalidInputProof` when the proof does not
verify and with `TypeMismatch` when the width is not the expected 8 bits;
otherwise allocates an internal 8-bit handle for the submitted value. -/
def fromExternal (c : ExternalCiphertext) (st : ChainState) :
    Except ImportError (Nat × ChainState) :=
  if c.proofValid = false then .error .InvalidInputProof
  else if c.width ≠ 8 then .error .TypeMismatch
  else .ok (alloc (c.value % U8) st)

/-- Scale factor preserving two decimals: `uint32 private constant SCALE = 100`. -/
def SCALE : Nat := 100

/-- The clamp the contract applies to a submitted 8-bit plaintext `s`:
`FHE.min(FHE.max(score, 1), 5)` at the value level. -/
def clampScore (s : Nat) : Nat := Min.min (Max.max s 1) 5

/-- The contract entry point `submitEncryptedScore(subject, cipherScore, inputProof)`. Imports the
external ciphertext, clamps it into `[1,5]` with ciphertext-space max/min,
casts to 32 bits, adds it onto the subject's running encrypted sum, increments
the clear counter by one inside an `unchecked` block (wraps modulo 2^32), and
re-grants the contract standing permission on the new sum handle. An error
from the import aborts the call before any state change. -/
def submitEncryptedScore (subject : Address) (cipherScore : ExternalCiphertext)
    (st : ChainState) : Except ImportError ChainState :=
  match fromExternal cipherScore st with
  | .error e => .error e
  | .ok p =>
      let score := p.1
      let p2 := FHE.asEuint8 1 p.2
      let one := p2.1
      let p3 := FHE.asEuint8 5 p2.2
      let five := p3.1
      let p4 := FHE.max score one p3.2
      let p5 := FHE.min p4.1 five p4.2
      let clamped := p5.1
      let p6 := FHE.asEuint32OfEuint8 clamped p5.2
      let clamped32 := p6.1
      let s6 := p6.2
      let p7 := FHE.add ((s6.stats subject).sum) clamped32 s6
      let newSum := p7.1
      let s7 := p7.2
      let s8 := { s7 with
                    stats := fun a =>
                      if a = subject then
                        { sum := newSum
                          count := ((s7.stats subject).count + 1) % U32 }
                      else s7.stats a }
      .ok (FHE.allowThis newSum s8)

/-- A `submitEncryptedScore` transaction at the ledger level: on success the
new state commits; on revert (`InvalidInputProof` / `TypeMismatch`) the EVM
rolls the whole call back and the pre-state stands unchanged. -/
def submitTx (subject : Address) (cipherScore : ExternalCiphertext)
    (st : ChainState) : ChainState :=
  match submitEncryptedScore subject cipherScore st with
  | .ok st' => st'
  | .error _ => st

/-- The contract entry point `getEncryptedAverage(subject)` called by `caller` (= `msg.sender`).
Returns a fresh encrypted zero when `count = 0`; otherwise computes
`FHE.div(FHE.mul(sum, FHE.asEuint32(SCALE)), count)`. Then grants the caller
decryption permission on the returned handle and refreshes the contract's own
permission on it. Returns the handle and the post-state. -/
def getEncryptedAverage (caller subject : Address) (st : ChainState) :
    Nat × ChainState :=
  let s := st.stats subject
  let p :=
    if s.count = 0 then FHE.asEuint32 0 st
    else
      let ph := FHE.asEuint32 SCALE st
      let pm := FHE.mul s.sum ph.1 ph.2
      FHE.div pm.1 s.count pm.2
  let avg := p.1
  let st1 := FHE.allow avg caller p.2
  (avg, FHE.allowThis avg st1)

/-- View function `getEncryptedSum(subject)`: pure view returning the stored sum handle. -/
def getEncryptedSum (subject : Address) (st : ChainState) : Nat :=
  (st.stats subject).sum

/-- View function `getCount(subject)`: pure view returning the clear counter. -/
def getCount (subject : Address) (st : ChainState) : Nat :=
  (st.stats subject).count

/-- Run a list of submit transactions for one subject in order (each one a
separate successful-or-reverting call). -/
def submitList (subject : Address) (cs : List ExternalCiphertext)
    (st : ChainState) : ChainState :=
  match cs with
  | [] => st
  | c :: rest => submitList subject rest (submitTx subject c st)

/-- The decryption oracle: a principal holding an ACL entry for a handle may
learn its plaintext; anyone else is refused. -/
def oracleDecrypt (st : ChainState) (h : Nat) (p : Address) : Option Nat :=
  if st.acl h p then some (st.handleVal h) else none

/-- Well-formedness of a reachable chain state: at least one handle id has
been consumed, the uninitialized handle 0 decrypts to 0, and every stored sum
handle is an already-allocated handle whose value fits 32 bits, with the clear
counter a genuine `uint32`. -/
def WF (st : ChainState) : Prop :=
  0 < st.nextHandle ∧ st.handleVal 0 = 0 ∧
    ∀ a : Address, (st.stats a).sum < st.nextHandle ∧
      st.handleVal (st.stats a).sum < U32 ∧ (st.stats a).count < U32

/-- A small concrete well-formed state: one allocated sum handle (id 1)
decrypting to 12, three recorded ratings for every subject. Used to evaluate
the average formula at the spec's worked example sum = 12, count = 3. -/
def exampleState : ChainState :=
  { nextHandle := 2
    handleVal := fun i => if i = 1 then 12 else 0
    acl := fun _ _ => false
    stats := fun _ => { sum := 1, count := 3 } }

/-- A concrete well-formed state whose counter sits at the maximal `uint32`
value, to drive the counter wrap. -/
def maxCountState : ChainState :=
  { nextHandle := 1
    handleVal := fun _ => 0
    acl := fun _ _ => false
    stats := fun _ => { sum := 0, count := U32 - 1 } }

/-- A concrete submission load large enough to overflow the 32-bit scaling
multiplication: 42949673 valid submissions of the score 5, whose clamped sum
214748365 satisfies 214748365 × 100 ≥ 2^32. -/
def overflowList : List ExternalCiphertext := List.replicate 42949673 ⟨5, 8, true⟩

/-- The chain state reached by running `overflowList` against subject 9 from a
fresh deployment. -/
def overflowState : ChainState := submitList 9 overflowList initialState

/-- A concrete submission load long enough to overflow the clear 32-bit
counter: exactly 2^32 valid submissions. -/
def wrapList : List ExternalCiphertext := List.replicate 4294967296 ⟨5, 8, true⟩

/-- The chain state reached by running `wrapList` against subject 9 from a
fresh deployment. -/
def wrapState : ChainState := submitList 9 wrapList initialState

end RatingNet

namespace FrontendApp

/-- The pieces of React state `App.tsx` reads when gating the submit action:
whether the FHEVM instance, signer, provider and deployed contract address
are present, the selected score, and whether `ethers.isAddress(target)`
holds for the typed target string. -/
structure AppState where
  instanceReady : Bool
  signerPresent : Bool
  providerPresent : Bool
  addressPresent : Bool
  score : Int
  targetIsAddress : Bool
deriving Repr, DecidableEq

/-- The `canSubmit` memo from App.tsx:
`fhevm.instance && signer && provider && contractMeta.address &&
score >= 1 && score <= 5 && ethers.isAddress(target)`. -/
def canSubmit (s : AppState) : Bool :=
  s.instanceReady && s.signerPresent && s.providerPresent && s.addressPresent &&
    decide (1 ≤ s.score) && decide (s.score ≤ 5) && s.targetIsAddress

/-- The `submit` callback from App.tsx, abstracted to its observable effect:
`if (!canSubmit || !fhevm.instance || !signer || !contractMeta.address)
return;` bails out sending nothing; otherwise the selected score is encrypted
and submitted in a transaction. `some v` is a transaction carrying encrypted
score `v`; `none` means no encryption and no transaction happened. -/
def submit (s : AppState) : Option Int :=
  if !canSubmit s || !s.instanceReady || !s.signerPresent || !s.addressPresent then
    none
  else
    some s.score

end FrontendApp

namespace RatingNet

/-! Basic facts about handle allocation. -/

lemma alloc_snd_nextHandle (v : Nat) (st : ChainState) :
    ((alloc v st).2).nextHandle = st.nextHandle + 1 := rfl

lemma alloc_snd_stats (v : Nat) (st : ChainState) :
    ((alloc v st).2).stats = st.stats := rfl

lemma alloc_handleVal_of_lt (v : Nat) (st : ChainState) {i : Nat}
    (h : i < st.nextHandle) : ((alloc v st).2).handleVal i = st.handleVal i := by
  simp only [alloc]
  exact if_neg (by omega)

/-! Projections of a `submitEncryptedScore` transaction. -/

lemma submitEncryptedScore_ok (subject : Address) (c : ExternalCiphertext)
    (st : ChainState) (hp : c.proofValid = true) (hw : c.width = 8) :
    submitEncryptedScore subject c st = .ok (submitTx subject c st) := by
  simp [submitTx, submitEncryptedScore, fromExternal, hp, hw]

lemma submitTx_count (subject : Address) (c : ExternalCiphertext)
    (st : ChainState) (hp : c.proofValid = true) (hw : c.width = 8) :
    ((submitTx subject c st).stats subject).count
      = ((st.stats subject).count + 1) % U32 := by
  simp [submitTx, submitEncryptedScore, fromExternal, hp, hw,
        FHE.asEuint8, FHE.max, FHE.min, FHE.asEuint32OfEuint8, FHE.add,
        FHE.allowThis, FHE.allow, alloc]

lemma submitTx_sum_handle (subject : Address) (c : ExternalCiphertext)
    (st : ChainState) (hp : c.proofValid = true) (hw : c.width = 8) :
    ((submitTx subject c st).stats subject).sum = st.nextHandle + 6 := by
  simp [submitTx, submitEncryptedScore, fromExternal, hp, hw,
        FHE.asEuint8, FHE.max, FHE.min, FHE.asEuint32OfEuint8, FHE.add,
        FHE.allowThis, FHE.allow, alloc]

lemma submitTx_nextHandle (subject : Address) (c : ExternalCiphertext)
    (st : ChainState) (hp : c.proofValid = true) (hw : c.width = 8) :
    (submitTx subject c st).nextHandle = st.nextHandle + 7 := by
  simp [submitTx, submitEncryptedScore, fromExternal, hp, hw,
        FHE.asEuint8, FHE.max, FHE.min, FHE.asEuint32OfEuint8, FHE.add,
        FHE.allowThis, FHE.allow, alloc]

lemma submitTx_stats_ne (subject : Address) (c : ExternalCiphertext)
    (st : ChainState) {a : Address} (ha : a ≠ subject) :
    (submitTx subject c st).stats a = st.stats a := by
  by_cases hp : c.proofValid = true
  · by_cases hw : c.width = 8
    · simp [submitTx, submitEncryptedScore, fromExternal, hp, hw,
            FHE.asEuint8, FHE.max, FHE.min, FHE.asEuint32OfEuint8, FHE.add,
            FHE.allowThis, FHE.allow, alloc, ha]
    · simp [submitTx, submitEncryptedScore, fromExternal, hp, hw]
  · simp only [Bool.not_eq_true] at hp
    simp [submitTx, submitEncryptedScore, fromExternal, hp]

lemma submitTx_handleVal_of_lt (subject : Address) (c : ExternalCiphertext)
    (st : ChainState) {i : Nat} (h : i < st.nextHandle) :
    (submitTx subject c st).handleVal i = st.handleVal i := by
  by_cases hp : c.proofValid = true
  · by_cases hw : c.width = 8
    · simp [submitTx, submitEncryptedScore, fromExternal, hp, hw,
            FHE.asEuint8, FHE.max, FHE.min, FHE.asEuint32OfEuint8, FHE.add,
            FHE.allowThis, FHE.allow, alloc, U8, U32]
      split_ifs <;> omega
    · simp [submitTx, submitEncryptedScore, fromExternal, hp, hw]
  · simp only [Bool.not_eq_true] at hp
    simp [submitTx, submitEncryptedScore, fromExternal, hp]

lemma submitTx_sumVal (subject : Address) (c : ExternalCiphertext)
    (st : ChainState) (hp : c.proofValid = true) (hw : c.width = 8)
    (hsum : (st.stats subject).sum < st.nextHandle) :
    (submitTx subject c st).handleVal ((submitTx subject c st).stats subject).sum
      = (st.handleVal ((st.stats subject).sum) + clampScore (c.value % U8)) % U32 := by
  simp [submitTx, submitEncryptedScore, fromExternal, hp, hw,
        FHE.asEuint8, FHE.max, FHE.min, FHE.asEuint32OfEuint8, FHE.add,
        FHE.allowThis, FHE.allow, alloc, clampScore, U8, U32]
  split_ifs <;> omega

/-! Projections of a `getEncryptedAverage` transaction. -/

lemma getAvg_snd_stats (caller subject : Address) (st : ChainState) :
    ((getEncryptedAverage caller subject st).2).stats = st.stats := by
  simp only [getEncryptedAverage, FHE.asEuint32, FHE.mul, FHE.div,
             FHE.allow, FHE.allowThis, alloc]
  split <;> rfl

lemma getAvg_val (caller subject : Address) (st : ChainState)
    (hsum : (st.stats subject).sum < st.nextHandle) :
    ((getEncryptedAverage caller subject st).2).handleVal
        (getEncryptedAverage caller subject st).1
      = if (st.stats subject).count = 0 then 0
        else (st.handleVal ((st.stats subject).sum) * SCALE) % U32
              / (st.stats subject).count := by
  by_cases h0 : (st.stats subject).count = 0
  · simp [getEncryptedAverage, FHE.asEuint32, FHE.mul, FHE.div,
          FHE.allow, FHE.allowThis, alloc, h0, U32]
  · simp [getEncryptedAverage, FHE.asEuint32, FHE.mul, FHE.div,
          FHE.allow, FHE.allowThis, alloc, h0, SCALE, U32]
    split_ifs <;> omega

lemma getAvg_acl_caller (caller subject : Address) (st : ChainState) :
    ((getEncryptedAverage caller subject st).2).acl
        (getEncryptedAverage caller subject st).1 caller = true := by
  by_cases hc : caller = engineAddr <;>
    simp [getEncryptedAverage, FHE.asEuint32, FHE.mul, FHE.div,
          FHE.allow, FHE.allowThis, alloc, hc]

lemma getAvg_acl_engine (caller subject : Address) (st : ChainState) :
    ((getEncryptedAverage caller subject st).2).acl
        (getEncryptedAverage caller subject st).1 engineAddr = true := by
  simp [getEncryptedAverage, FHE.asEuint32, FHE.mul, FHE.div,
        FHE.allow, FHE.allowThis, alloc]

lemma getAvg_handleVal_of_lt (caller subject : Address) (st : ChainState)
    {i : Nat} (h : i < st.nextHandle) :
    ((getEncryptedAverage caller subject st).2).handleVal i = st.handleVal i := by
  by_cases h0 : (st.stats subject).count = 0 <;>
    · simp [getEncryptedAverage, FHE.asEuint32, FHE.mul, FHE.div,
            FHE.allow, FHE.allowThis, alloc, h0]
      first
        | (split_ifs <;> omega)
        | omega

lemma getAvg_fst_fresh (caller subject : Address) (st : ChainState) :
    st.nextHandle ≤ (getEncryptedAverage caller subject st).1 ∧
      (getEncryptedAverage caller subject st).1
        < ((getEncryptedAverage caller subject st).2).nextHandle := by
  by_cases h0 : (st.stats subject).count = 0 <;>
    · simp [getEncryptedAverage, FHE.asEuint32, FHE.mul, FHE.div,
            FHE.allow, FHE.allowThis, alloc, h0]
      try omega

lemma getAvg_nextHandle_ge (caller subject : Address) (st : ChainState) :
    st.nextHandle ≤ ((getEncryptedAverage caller subject st).2).nextHandle := by
  by_cases h0 : (st.stats subject).count = 0 <;>
    · simp [getEncryptedAverage, FHE.asEuint32, FHE.mul, FHE.div,
            FHE.allow, FHE.allowThis, alloc, h0]
      try omega

/-! Well-formedness is established initially and preserved by both
transactions. -/

lemma WF_initialState : WF initialState := by
  refine ⟨by simp [initialState], rfl, fun a => ?_⟩
  refine ⟨by simp [initialState], by simp [initialState, U32],
    by simp [initialState, U32]⟩

lemma submitTx_WF (subject : Address) (c : ExternalCiphertext)
    (st : ChainState) (hwf : WF st) : WF (submitTx subject c st) := by
  obtain ⟨hn, h0, hs⟩ := hwf
  by_cases hp : c.proofValid = true
  · by_cases hw : c.width = 8
    · refine ⟨?_, ?_, fun a => ?_⟩
      · rw [submitTx_nextHandle subject c st hp hw]; omega
      · rw [submitTx_handleVal_of_lt subject c st hn]; exact h0
      · by_cases ha : a = subject
        · subst ha
          refine ⟨?_, ?_, ?_⟩
          · rw [submitTx_sum_handle a c st hp hw, submitTx_nextHandle a c st hp hw]
            omega
          · rw [submitTx_sumVal a c st hp hw (hs a).1]
            have : U32 > 0 := by decide
            exact Nat.mod_lt _ this
          · rw [submitTx_count a c st hp hw]
            have : U32 > 0 := by decide
            exact Nat.mod_lt _ this
        · have hst := submitTx_stats_ne subject c st ha
          rw [hst]
          refine ⟨?_, ?_, (hs a).2.2⟩
          · rw [submitTx_nextHandle subject c st hp hw]
            have := (hs a).1
            omega
          · rw [submitTx_handleVal_of_lt subject c st (hs a).1]
            exact (hs a).2.1
    · have : submitTx subject c st = st := by
        simp [submitTx, submitEncryptedScore, fromExternal, hp, hw]
      rw [this]; exact ⟨hn, h0, hs⟩
  · simp only [Bool.not_eq_true] at hp
    have : submitTx subject c st = st := by
      simp [submitTx, submitEncryptedScore, fromExternal, hp]
    rw [this]; exact ⟨hn, h0, hs⟩

lemma getAvg_WF (caller subject : Address) (st : ChainState) (hwf : WF st) :
    WF ((getEncryptedAverage caller subject st).2) := by
  obtain ⟨hn, h0, hs⟩ := hwf
  have hge := getAvg_nextHandle_ge caller subject st
  refine ⟨by omega, ?_, fun a => ?_⟩
  · rw [getAvg_handleVal_of_lt caller subject st hn]; exact h0
  · rw [getAvg_snd_stats caller subject st]
    refine ⟨by have := (hs a).1; omega, ?_, (hs a).2.2⟩
    rw [getAvg_handleVal_of_lt caller subject st (hs a).1]
    exact (hs a).2.1

/-- Closed form for a run of valid submissions against one subject: the
counter advances by the number of submissions modulo 2^32 and the decrypted
sum advances by the total of the clamped contributions modulo 2^32. -/
lemma submitList_spec (subject : Address) :
    ∀ (cs : List ExternalCiphertext) (st : ChainState), WF st →
      (∀ c ∈ cs, c.proofValid = true ∧ c.width = 8) →
      WF (submitList subject cs st) ∧
      ((submitList subject cs st).stats subject).count
        = ((st.stats subject).count + cs.length) % U32 ∧
      (submitList subject cs st).handleVal
          ((submitList subject cs st).stats subject).sum
        = (st.handleVal ((st.stats subject).sum)
            + (cs.map (fun c => clampScore (c.value % U8))).sum) % U32 := by
  intro cs
  induction cs with
  | nil =>
      intro st hwf _
      refine ⟨hwf, ?_, ?_⟩
      · simp [submitList]
        exact (Nat.mod_eq_of_lt (hwf.2.2 subject).2.2).symm
      · simp [submitList]
        exact (Nat.mod_eq_of_lt (hwf.2.2 subject).2.1).symm
  | cons c rest ih =>
      intro st hwf hv
      obtain ⟨hp, hw⟩ := hv c (by simp)
      have hv' : ∀ x ∈ rest, x.proofValid = true ∧ x.width = 8 :=
        fun x hx => hv x (by simp [hx])
      have hwf' := submitTx_WF subject c st hwf
      obtain ⟨w, hcount, hsum⟩ := ih (submitTx subject c st) hwf' hv'
      have hstep : submitList subject (c :: rest) st
          = submitList subject rest (submitTx subject c st) := rfl
      refine ⟨hstep ▸ w, ?_, ?_⟩
      · rw [hstep, hcount, submitTx_count subject c st hp hw]
        simp only [List.length_cons, U32]
        omega
      · rw [hstep, hsum, submitTx_sumVal subject c st hp hw (hwf.2.2 subject).1]
        simp only [List.map_cons, List.sum_cons, U32]
        omega

/-- Specialisation of `submitList_spec` to `n` identical valid submissions of
the raw score `v` against a freshly deployed contract. -/
lemma submitList_replicate (subject : Address) (n : Nat) (v : Nat) :
    ((submitList subject (List.replicate n ⟨v, 8, true⟩) initialState).stats
        subject).count = n % U32 ∧
      (submitList subject (List.replicate n ⟨v, 8, true⟩) initialState).handleVal
          ((submitList subject (List.replicate n ⟨v, 8, true⟩) initialState).stats
              subject).sum
        = (n * clampScore (v % U8)) % U32 ∧
      WF (submitList subject (List.replicate n ⟨v, 8, true⟩) initialState) := by
  have hv : ∀ c ∈ List.replicate n (⟨v, 8, true⟩ : ExternalCiphertext),
      c.proofValid = true ∧ c.width = 8 := by
    intro c hc
    rw [List.eq_of_mem_replicate hc]
    exact ⟨rfl, rfl⟩
  obtain ⟨w, hcount, hsum⟩ :=
    submitList_spec subject (List.replicate n ⟨v, 8, true⟩) initialState
      WF_initialState hv
  refine ⟨?_, ?_, w⟩
  · rw [hcount]; simp [initialState]
  · rw [hsum]; simp [initialState, mul_comm]

lemma WF_exampleState : WF exampleState := by
  refine ⟨by simp [exampleState], by simp [exampleState], fun a => ?_⟩
  refine ⟨by simp [exampleState], by simp [exampleState, U32],
    by simp [exampleState, U32]⟩

lemma WF_maxCountState : WF maxCountState := by
  refine ⟨by simp [maxCountState], by simp [maxCountState], fun a => ?_⟩
  refine ⟨by simp [maxCountState], by simp [maxCountState, U32],
    by simp [maxCountState, U32]⟩

end RatingNet

namespace RatingNet

/-- C1 (counterexample): in the reachable state after 42949673 valid
submissions of the score 5 (clamped sum 214748365, count 42949673), the
handle returned by `getEncryptedAverage` does not decrypt to
floor(sum × 100 / count) = 500: the 32-bit scaling multiplication wraps and
the handle decrypts to 0 instead. -/
theorem claim_C1_counterexample :
    (overflowState.stats 9).count ≠ 0 ∧
    ((getEncryptedAverage 7 9 overflowState).2).handleVal
        (getEncryptedAverage 7 9 overflowState).1
      ≠ overflowState.handleVal ((overflowState.stats 9).sum) * SCALE
          / (overflowState.stats 9).count := by
  obtain ⟨hcount, hsum, hwf⟩ := submitList_replicate 9 42949673 5
  have hc : (overflowState.stats 9).count = 42949673 := by
    rw [overflowState, overflowList, hcount]; decide
  have hs : overflowState.handleVal ((overflowState.stats 9).sum) = 214748365 := by
    rw [overflowState, overflowList, hsum]; decide
  have hwf' : WF overflowState := by rw [overflowState, overflowList]; exact hwf
  have hval := getAvg_val 7 9 overflowState (hwf'.2.2 9).1
  constructor
  · rw [hc]; decide
  · rw [hval, if_neg (by rw [hc]; decide), hc, hs]
    decide

/-- C1 (amended): for every subject, the handle returned by
`getEncryptedAverage` decrypts to 0 when the subject's count is 0 (a freshly
encrypted zero, a defined non-error result), and when count > 0 it decrypts to
exactly floor(((sum × 100) mod 2^32) / count) with floor-toward-zero
semantics — which coincides with floor(sum × 100 / count) whenever
sum × 100 < 2^32. -/
theorem claim_C1_average_formula (caller subject : Address) (st : ChainState)
    (hwf : WF st) :
    ((st.stats subject).count = 0 →
      ((getEncryptedAverage caller subject st).2).handleVal
        (getEncryptedAverage caller subject st).1 = 0) ∧
    ((st.stats subject).count ≠ 0 →
      ((getEncryptedAverage caller subject st).2).handleVal
        (getEncryptedAverage caller subject st).1
        = (st.handleVal ((st.stats subject).sum) * SCALE) % U32
            / (st.stats subject).count) := by
  have h := getAvg_val caller subject st (hwf.2.2 subject).1
  constructor
  · intro h0; rw [h, if_pos h0]
  · intro h0; rw [h, if_neg h0]

/-- C1 (witness): at the concrete well-formed state with sum = 12 and
count = 3, the returned handle decrypts to exactly 400, the spec's worked
example (displayed 4.00). -/
theorem claim_C1_witness :
    WF exampleState ∧
    ((getEncryptedAverage 7 5 exampleState).2).handleVal
        (getEncryptedAverage 7 5 exampleState).1 = 400 := by
  refine ⟨WF_exampleState, ?_⟩
  have h := (claim_C1_average_formula 7 5 exampleState WF_exampleState).2 (by decide)
  rw [h]; decide

/-- C2: for every raw 8-bit input score (in-range or not), the contribution a
successful `submitEncryptedScore` adds to the subject's decrypted sum is
exactly min(max(s, 1), 5), which lies in [1, 5]. The clamp is the
ciphertext-space `FHE.min`/`FHE.max` pair of the source; the embedding
contains no decryption anywhere on the submit path. -/
theorem claim_C2_clamped_contribution (subject : Address) (c : ExternalCiphertext)
    (st : ChainState) (hwf : WF st) (hp : c.proofValid = true) (hw : c.width = 8)
    (h8 : c.value < U8) :
    (submitTx subject c st).handleVal
        (getEncryptedSum subject (submitTx subject c st))
      = (st.handleVal (getEncryptedSum subject st)
          + Min.min (Max.max c.value 1) 5) % U32 ∧
    1 ≤ Min.min (Max.max c.value 1) 5 ∧ Min.min (Max.max c.value 1) 5 ≤ 5 := by
  have h := submitTx_sumVal subject c st hp hw (hwf.2.2 subject).1
  rw [Nat.mod_eq_of_lt h8] at h
  refine ⟨?_, by omega, by omega⟩
  rw [getEncryptedSum, getEncryptedSum, h, clampScore]

/-- C2 (witness): submitting the out-of-range raw score 255 to a fresh
deployment adds exactly the clamped contribution 5 to the sum. -/
theorem claim_C2_witness :
    WF initialState ∧ (255 : Nat) < U8 ∧
    (submitTx 9 ⟨255, 8, true⟩ initialState).handleVal
        (getEncryptedSum 9 (submitTx 9 ⟨255, 8, true⟩ initialState)) = 5 := by
  refine ⟨WF_initialState, by decide, ?_⟩
  have h := (claim_C2_clamped_contribution 9 ⟨255, 8, true⟩ initialState
    WF_initialState rfl rfl (by decide)).1
  rw [h]; decide

/-- C3 (counterexample): after exactly 2^32 successful submissions to a fresh
subject the stored count is not the number of submissions — the `unchecked`
32-bit counter has wrapped to 0. -/
theorem claim_C3_counterexample :
    getCount 9 wrapState ≠ wrapList.length := by
  obtain ⟨hcount, _, _⟩ := submitList_replicate 9 4294967296 5
  have hc : getCount 9 wrapState = 0 := by
    rw [getCount, wrapState, wrapList, hcount]; decide
  rw [hc, wrapList, List.length_replicate]
  decide

/-- C3 (amended): for any sequence of n successful `submitEncryptedScore`
calls for a fresh subject with raw scores s_1..s_n, the subject's count
afterwards equals n mod 2^32 and the decrypted sum equals
(Σ min(max(s_i, 1), 5)) mod 2^32 — these equal n and the plain clamped total
whenever n < 2^32 and the clamped total is < 2^32. -/
theorem claim_C3_submission_totals (subject : Address)
    (cs : List ExternalCiphertext) (st : ChainState) (hwf : WF st)
    (hfresh : st.stats subject = ⟨0, 0⟩)
    (hv : ∀ c ∈ cs, c.proofValid = true ∧ c.width = 8) :
    getCount subject (submitList subject cs st) = cs.length % U32 ∧
    (submitList subject cs st).handleVal
        (getEncryptedSum subject (submitList subject cs st))
      = (cs.map (fun c => clampScore (c.value % U8))).sum % U32 := by
  obtain ⟨_, hcount, hsum⟩ := submitList_spec subject cs st hwf hv
  constructor
  · rw [getCount, hcount, hfresh]
    simp
  · rw [getEncryptedSum, hsum, hfresh]
    simp [hwf.2.1]

/-- C3 (witness): two successful submissions (raw scores 4 and 200) to a
fresh subject leave count 2 and decrypted sum 4 + 5 = 9. -/
theorem claim_C3_witness :
    WF initialState ∧
    getCount 9 (submitList 9 [⟨4, 8, true⟩, ⟨200, 8, true⟩] initialState) = 2 ∧
    (submitList 9 [⟨4, 8, true⟩, ⟨200, 8, true⟩] initialState).handleVal
        (getEncryptedSum 9
          (submitList 9 [⟨4, 8, true⟩, ⟨200, 8, true⟩] initialState)) = 9 := by
  obtain ⟨h1, h2⟩ := claim_C3_submission_totals 9 [⟨4, 8, true⟩, ⟨200, 8, true⟩]
    initialState WF_initialState rfl (by decide)
  exact ⟨WF_initialState, h1.trans (by decide), h2.trans (by decide)⟩

/-- C4: an untouched subject has count 0 and a sum handle decrypting to 0
(the implicit encrypted zero), and the first successful write — a single
atomic transition of the embedding, so count and sum can never be observed
updated separately — leaves count 1 and a decrypted sum equal to the single
clamped contribution. -/
theorem claim_C4_lazy_init (subject : Address) (c : ExternalCiphertext)
    (st : ChainState) (hwf : WF st) (hfresh : st.stats subject = ⟨0, 0⟩)
    (hp : c.proofValid = true) (hw : c.width = 8) :
    getCount subject st = 0 ∧
    st.handleVal (getEncryptedSum subject st) = 0 ∧
    getCount subject (submitTx subject c st) = 1 ∧
    (submitTx subject c st).handleVal
        (getEncryptedSum subject (submitTx subject c st))
      = clampScore (c.value % U8) := by
  refine ⟨by rw [getCount, hfresh], ?_, ?_, ?_⟩
  · rw [getEncryptedSum, hfresh]
    exact hwf.2.1
  · rw [getCount, submitTx_count subject c st hp hw, hfresh]
    decide
  · rw [getEncryptedSum, submitTx_sumVal subject c st hp hw (hwf.2.2 subject).1,
        hfresh, hwf.2.1]
    have h5 : clampScore (c.value % U8) ≤ 5 := Nat.min_le_right _ _
    simp only [Nat.zero_add, U32]
    omega

/-- C4 (witness): on a fresh deployment, subject 9 starts at count 0 with an
encrypted-zero sum; the first submission of raw score 3 leaves count 1 and
decrypted sum 3 in one transition. -/
theorem claim_C4_witness :
    WF initialState ∧
    getCount 9 initialState = 0 ∧
    initialState.handleVal (getEncryptedSum 9 initialState) = 0 ∧
    getCount 9 (submitTx 9 ⟨3, 8, true⟩ initialState) = 1 ∧
    (submitTx 9 ⟨3, 8, true⟩ initialState).handleVal
        (getEncryptedSum 9 (submitTx 9 ⟨3, 8, true⟩ initialState)) = 3 := by
  obtain ⟨h1, h2, h3, h4⟩ :=
    claim_C4_lazy_init 9 ⟨3, 8, true⟩ initialState WF_initialState rfl rfl rfl
  exact ⟨WF_initialState, h1, h2, h3, h4.trans (by decide)⟩

/-- C5: `submitEncryptedScore` fails with `InvalidInputProof` exactly when the
input proof does not verify and with `TypeMismatch` when the proof verifies
but the ciphertext width is unsupported; any erroring call reverts, leaving
the whole chain state — in particular the subject's Stats — exactly as before
the call. -/
theorem claim_C5_input_validation (subject : Address) (c : ExternalCiphertext)
    (st : ChainState) :
    (c.proofValid = false →
      submitEncryptedScore subject c st = .error .InvalidInputProof) ∧
    (c.proofValid = true → c.width ≠ 8 →
      submitEncryptedScore subject c st = .error .TypeMismatch) ∧
    (∀ e : ImportError, submitEncryptedScore subject c st = .error e →
      submitTx subject c st = st) := by
  refine ⟨?_, ?_, ?_⟩
  · intro hp
    simp [submitEncryptedScore, fromExternal, hp]
  · intro hp hw
    simp [submitEncryptedScore, fromExternal, hp, hw]
  · intro e he
    simp [submitTx, he]

/-- C6: every `getEncryptedAverage` call grants the calling principal
decryption permission on the returned handle, refreshes the contract's own
permission on that same handle, and leaves every subject's Stats (stored sum
handle and count) unchanged — the call mutates only the ACL layer. -/
theorem claim_C6_acl_and_frame (caller subject : Address) (st : ChainState) :
    ((getEncryptedAverage caller subject st).2).acl
        (getEncryptedAverage caller subject st).1 caller = true ∧
    ((getEncryptedAverage caller subject st).2).acl
        (getEncryptedAverage caller subject st).1 engineAddr = true ∧
    ∀ a : Address, ((getEncryptedAverage caller subject st).2).stats a
      = st.stats a := by
  refine ⟨getAvg_acl_caller caller subject st, getAvg_acl_engine caller subject st,
    fun a => ?_⟩
  rw [getAvg_snd_stats]

/-- C7: each successful `submitEncryptedScore` advances the subject's count by
exactly one modulo 2^32 using plain integer addition — a genuine increment
whenever the count is below the 32-bit maximum, and a silent wrap to zero,
with the call still succeeding, when it is at the maximum — while
`getEncryptedAverage` never changes any count. -/
theorem claim_C7_counter_increment (subject caller : Address)
    (c : ExternalCiphertext) (st : ChainState)
    (hp : c.proofValid = true) (hw : c.width = 8) :
    getCount subject (submitTx subject c st) = (getCount subject st + 1) % U32 ∧
    (getCount subject st < U32 - 1 →
      getCount subject (submitTx subject c st) = getCount subject st + 1) ∧
    (getCount subject st = U32 - 1 →
      submitEncryptedScore subject c st = .ok (submitTx subject c st) ∧
      getCount subject (submitTx subject c st) = 0) ∧
    getCount subject ((getEncryptedAverage caller subject st).2)
      = getCount subject st := by
  have h := submitTx_count subject c st hp hw
  refine ⟨h, ?_, ?_, ?_⟩
  · intro hlt
    rw [getCount] at hlt ⊢
    rw [h]
    rw [getCount]
    simp only [U32] at hlt ⊢
    omega
  · intro hmax
    rw [getCount] at hmax
    refine ⟨submitEncryptedScore_ok subject c st hp hw, ?_⟩
    rw [getCount, h, hmax]
    simp only [U32]
    decide
  · rw [getCount, getCount, getAvg_snd_stats]

/-- C7 (witness): from the concrete state whose count sits at the 32-bit
maximum 4294967295, one further submission succeeds (no error is raised) and
wraps the count to zero. -/
theorem claim_C7_witness :
    WF maxCountState ∧ getCount 9 maxCountState = U32 - 1 ∧
    submitEncryptedScore 9 ⟨5, 8, true⟩ maxCountState
      = .ok (submitTx 9 ⟨5, 8, true⟩ maxCountState) ∧
    getCount 9 (submitTx 9 ⟨5, 8, true⟩ maxCountState) = 0 := by
  obtain ⟨_, _, h3, _⟩ :=
    claim_C7_counter_increment 9 7 ⟨5, 8, true⟩ maxCountState rfl rfl
  obtain ⟨ha, hb⟩ := h3 rfl
  exact ⟨WF_maxCountState, rfl, ha, hb⟩

/-- C8: two consecutive `getEncryptedAverage` calls for the same subject with
no intervening submission return handles that decrypt to identical values in
the resulting state, even though each call is a real ACL-mutating
transition. -/
theorem claim_C8_idempotent_average (c1 c2 subject : Address) (st : ChainState)
    (hwf : WF st) :
    ((getEncryptedAverage c2 subject
          ((getEncryptedAverage c1 subject st).2)).2).handleVal
        (getEncryptedAverage c1 subject st).1
      = ((getEncryptedAverage c2 subject
            ((getEncryptedAverage c1 subject st).2)).2).handleVal
          (getEncryptedAverage c2 subject
            ((getEncryptedAverage c1 subject st).2)).1 := by
  have hfresh := getAvg_fst_fresh c1 subject st
  have hwf1 := getAvg_WF c1 subject st hwf
  have hv1 := getAvg_val c1 subject st (hwf.2.2 subject).1
  have hv2 := getAvg_val c2 subject ((getEncryptedAverage c1 subject st).2)
    (hwf1.2.2 subject).1
  have hkeep := getAvg_handleVal_of_lt c2 subject
    ((getEncryptedAverage c1 subject st).2) hfresh.2
  rw [hkeep, hv1, hv2, getAvg_snd_stats c1 subject st,
      getAvg_handleVal_of_lt c1 subject st (hwf.2.2 subject).1]

/-- C8 (witness): two back-to-back average queries by different callers on a
fresh deployment return handles decrypting to the same value. -/
theorem claim_C8_witness :
    WF initialState ∧
    ((getEncryptedAverage 4 9 ((getEncryptedAverage 3 9 initialState).2)).2).handleVal
        (getEncryptedAverage 3 9 initialState).1
      = ((getEncryptedAverage 4 9 ((getEncryptedAverage 3 9 initialState).2)).2).handleVal
          (getEncryptedAverage 4 9 ((getEncryptedAverage 3 9 initialState).2)).1 :=
  ⟨WF_initialState, claim_C8_idempotent_average 3 4 9 initialState WF_initialState⟩

/-- C9: the engine's 32-bit encrypted arithmetic is wrapping and never
signals overflow: a valid submission always returns success and accumulates
the clamped contribution modulo 2^32, and for count > 0 the scaling
multiplication inside `getEncryptedAverage` produces (sum × 100) mod 2^32 —
the call is total, so neither operation can abort. -/
theorem claim_C9_wrapping_arithmetic (subject caller : Address)
    (c : ExternalCiphertext) (st : ChainState) (hwf : WF st)
    (hp : c.proofValid = true) (hw : c.width = 8) :
    submitEncryptedScore subject c st = .ok (submitTx subject c st) ∧
    (submitTx subject c st).handleVal
        (getEncryptedSum subject (submitTx subject c st))
      = (st.handleVal (getEncryptedSum subject st) + clampScore (c.value % U8)) % U32 ∧
    ((st.stats subject).count ≠ 0 →
      ((getEncryptedAverage caller subject st).2).handleVal
          (getEncryptedAverage caller subject st).1
        = (st.handleVal (getEncryptedSum subject st) * SCALE) % U32
            / (st.stats subject).count) := by
  refine ⟨submitEncryptedScore_ok subject c st hp hw, ?_, ?_⟩
  · rw [getEncryptedSum, getEncryptedSum,
        submitTx_sumVal subject c st hp hw (hwf.2.2 subject).1]
  · intro h0
    rw [getEncryptedSum, getAvg_val caller subject st (hwf.2.2 subject).1, if_neg h0]

/-- C9 (witness): at the concrete state with sum 12 and count 3, a further
submission of score 5 succeeds with new sum (12 + 5) mod 2^32 = 17, and the
average query decrypts to (12 × 100) mod 2^32 / 3 = 400. -/
theorem claim_C9_witness :
    WF exampleState ∧
    submitEncryptedScore 9 ⟨5, 8, true⟩ exampleState
      = .ok (submitTx 9 ⟨5, 8, true⟩ exampleState) ∧
    (submitTx 9 ⟨5, 8, true⟩ exampleState).handleVal
        (getEncryptedSum 9 (submitTx 9 ⟨5, 8, true⟩ exampleState)) = 17 ∧
    ((getEncryptedAverage 7 9 exampleState).2).handleVal
        (getEncryptedAverage 7 9 exampleState).1 = 400 := by
  obtain ⟨h1, h2, h3⟩ :=
    claim_C9_wrapping_arithmetic 9 7 ⟨5, 8, true⟩ exampleState WF_exampleState rfl rfl
  exact ⟨WF_exampleState, h1, h2.trans (by decide), (h3 (by decide)).trans (by decide)⟩

end RatingNet

/-- C10: the frontend submit action is gated — `canSubmit` holds exactly when
the FHEVM instance, signer, provider and deployed contract address are
present, the selected score lies in [1, 5] and the target parses as an
address; when `canSubmit` is false, `submit` sends nothing, and any score a
transaction does carry lies in [1, 5], a fixed point of the contract's clamp,
so the clamp branch is unreachable from this client. -/
theorem claim_C10_submit_gating (s : FrontendApp.AppState) :
    (FrontendApp.canSubmit s = true ↔
      (s.instanceReady = true ∧ s.signerPresent = true ∧ s.providerPresent = true ∧
        s.addressPresent = true ∧ 1 ≤ s.score ∧ s.score ≤ 5 ∧
        s.targetIsAddress = true)) ∧
    (FrontendApp.canSubmit s = false → FrontendApp.submit s = none) ∧
    (∀ v : Int, FrontendApp.submit s = some v →
      1 ≤ v ∧ v ≤ 5 ∧ RatingNet.clampScore v.toNat = v.toNat) := by
  refine ⟨?_, ?_, ?_⟩
  · simp [FrontendApp.canSubmit, and_assoc]
  · intro h
    simp [FrontendApp.submit, h]
  · intro v hv
    have hcs : FrontendApp.canSubmit s = true := by
      by_contra hc
      have hfalse : FrontendApp.canSubmit s = false := by
        cases hq : FrontendApp.canSubmit s
        · rfl
        · exact absurd hq hc
      simp [FrontendApp.submit, hfalse] at hv
    have hflags := hcs
    simp [FrontendApp.canSubmit] at hflags
    obtain ⟨⟨⟨⟨⟨⟨hi, hsg⟩, hpv⟩, hap⟩, h1⟩, h5⟩, ht⟩ := hflags
    have hsubmit : FrontendApp.submit s = some s.score := by
      simp [FrontendApp.submit, hcs, hi, hsg, hap]
    rw [hsubmit] at hv
    obtain rfl : s.score = v := Option.some.inj hv
    refine ⟨h1, h5, ?_⟩
    rw [RatingNet.clampScore]
    omega
